import Mathlib

/-
Verification of the gb_string.h dynamic string buffer library.

A gb string is a single allocation [header | payload bytes | terminator];
the handle points at the first payload byte.  We embed a live buffer as a
`GbString`: `len` and `cap` are the two header fields, and `data` is the
payload region of the allocation, i.e. the `cap + 1` bytes following the
header (payload bytes, the terminator slot, and any stale bytes between
`len + 1` and `cap`).  Bytes are modelled as `Nat`.

Allocation is modelled by an `alloc : Bool` oracle (does the next GB_ALLOC
call succeed) and a `junk : Nat → Nat` stream supplying the contents of
freshly allocated, uninitialized memory; theorems quantify over both so no
result depends on a particular junk value.  C functions that can fail
return `Option GbString`.  size_t arithmetic is modelled on `Nat`; the
theorems all carry the well-formedness facts (`WF`) under which none of the
source's size_t subtractions underflow.
-/

namespace GbSpec

/-- A live gb string buffer: the two `gb_String_Header` fields plus the
payload region (`cap + 1` bytes after the header: payload, terminator slot,
stale bytes). -/
structure GbString where
  len : Nat
  cap : Nat
  data : List Nat
deriving Repr, DecidableEq

/-- Embeds `strchr(cut_set, c) != NULL` where `cut_set` is the C string
whose (nonzero) bytes are the list `cs`.  strchr scans the bytes of
`cut_set` and also matches the terminating 0 byte, so `c = 0` always
matches. -/
def strchrB (cs : List Nat) (c : Nat) : Bool :=
  match cs with
  | [] => c == 0
  | b :: rest => if c == b then true else strchrB rest c

/-- gb_string_length: reads the header `len` field. -/
def gb_string_length (str : GbString) : Nat := str.len

/-- gb_string_capacity: reads the header `cap` field. -/
def gb_string_capacity (str : GbString) : Nat := str.cap

/-- gb_string_available_space: `cap - len` when `cap > len`, else 0. -/
def gb_string_available_space (str : GbString) : Nat :=
  if str.cap > str.len then str.cap - str.len else 0

/-- gb_clear_string: sets `len` to 0 and writes a 0 byte at offset 0. -/
def gb_clear_string (str : GbString) : GbString :=
  { str with len := 0, data := str.data.set 0 0 }

/-- Contents of `k` freshly allocated (uninitialized) bytes, drawn from the
junk stream. -/
def freshBytes (junk : Nat → Nat) (k : Nat) : List Nat :=
  (List.range k).map junk

/-- gb_make_string_length: allocates `header + len + 1` bytes; on success
sets `len` and `cap` to `len`, copies `len` bytes from `init_str` when it
is non-null (zero-fills the whole block when it is null) and writes the
terminator at offset `len`.  `init_str = some s` models a readable source
of at least `len` bytes whose first `len` bytes are `s.take len`; theorems
use it with `len ≤ s.length`.  (The source memsets before its null check;
the failure/null-source combination is undefined behaviour in C and is
modelled as plain failure here.) -/
def gb_make_string_length (alloc : Bool) (init_str : Option (List Nat))
    (len : Nat) : Option GbString :=
  if alloc then
    match init_str with
    | none => some { len := len, cap := len, data := List.replicate (len + 1) 0 }
    | some s => some { len := len, cap := len, data := s.take len ++ [0] }
  else
    none

/-- gb_make_string: strlen on a C string modelled as the list of its
(nonzero) bytes, then gb_make_string_length. -/
def gb_make_string (alloc : Bool) (str : Option (List Nat)) : Option GbString :=
  gb_make_string_length alloc str (match str with | none => 0 | some s => s.length)

/-- Embeds gb__string_realloc acting on the payload region of the block:
`old_size` and `new_size` are the payload-region byte counts (the header
size cancels).  If `new_size` clamps to `old_size` the old block is
returned; otherwise a fresh block is allocated (failure possible), the
first `old_size` bytes are copied over and the rest is uninitialized.  The
`!ptr` branch of the source is unreachable from a live buffer and is not
modelled. -/
def gb__string_realloc (alloc : Bool) (junk : Nat → Nat) (data : List Nat)
    (old_size new_size : Nat) : Option (List Nat) :=
  if new_size ≤ old_size then some data
  else if alloc then some (data.take old_size ++ freshBytes junk (new_size - old_size))
  else none

/-- Embeds the GB_FREE call site of gb__string_realloc: the old block is
freed exactly on the path where the fresh allocation succeeded (never on
the clamp/equal path, never on allocation failure). -/
def gb__string_realloc_frees (alloc : Bool) (old_size new_size : Nat) : Bool :=
  if new_size ≤ old_size then false else alloc

/-- gb_string_make_space_for: returns `str` untouched when
`available ≥ add_len`; otherwise reallocates the block from payload size
`len + 1` to `len + add_len + 1` (copying `len + 1` payload bytes, i.e.
dropping stale bytes past the terminator) and sets `cap := len + add_len`.
`len` is not changed. -/
def gb_string_make_space_for (alloc : Bool) (junk : Nat → Nat)
    (str : GbString) (add_len : Nat) : Option GbString :=
  let len := gb_string_length str
  let new_len := len + add_len
  if gb_string_available_space str ≥ add_len then some str
  else
    match gb__string_realloc alloc junk str.data (len + 1) (new_len + 1) with
    | none => none
    | some d => some { len := str.len, cap := new_len, data := d }

/-- Whether gb_string_make_space_for frees the caller's old block (it does
so only via the success path of gb__string_realloc). -/
def gb_string_make_space_for_frees (alloc : Bool) (str : GbString)
    (add_len : Nat) : Bool :=
  if gb_string_available_space str ≥ add_len then false
  else gb__string_realloc_frees alloc (gb_string_length str + 1)
        (gb_string_length str + add_len + 1)

/-- memcpy of `src` into `dst` at byte offset `off` (models
`memcpy(dst + off, src, src.length)`; in-bounds whenever
`off + src.length ≤ dst.length`). -/
def memcpyAt (dst : List Nat) (off : Nat) (src : List Nat) : List Nat :=
  dst.take off ++ src ++ dst.drop (off + src.length)

/-- gb_append_string_length: reserves space for `other_len` more bytes,
copies `other_len` bytes of `other` at offset `curr_len`, writes the
terminator at `curr_len + other_len` and stores the new length.  `other`
models a readable source of at least `other_len` bytes. -/
def gb_append_string_length (alloc : Bool) (junk : Nat → Nat)
    (str : GbString) (other : List Nat) (other_len : Nat) : Option GbString :=
  let curr_len := gb_string_length str
  match gb_string_make_space_for alloc junk str other_len with
  | none => none
  | some s =>
    some { len := curr_len + other_len,
           cap := s.cap,
           data := (memcpyAt s.data curr_len (other.take other_len)).set
                     (curr_len + other_len) 0 }

/-- gb_append_string: appends another gb string, reading
`gb_string_length other` bytes from its payload region. -/
def gb_append_string (alloc : Bool) (junk : Nat → Nat)
    (str other : GbString) : Option GbString :=
  gb_append_string_length alloc junk str other.data (gb_string_length other)

/-- gb_append_cstring: appends a C string modelled as the list of its
(nonzero) bytes, so strlen is its length. -/
def gb_append_cstring (alloc : Bool) (junk : Nat → Nat)
    (str : GbString) (other : List Nat) : Option GbString :=
  gb_append_string_length alloc junk str other other.length

/-- gb_set_string: when `cap < strlen(cstr)` grows by exactly the shortfall
`strlen(cstr) - len` via gb_string_make_space_for (failure propagates);
then copies the new bytes at offset 0, writes the terminator at
`strlen(cstr)` and stores the new length.  The C string `cstr` is modelled
as the list of its (nonzero) bytes. -/
def gb_set_string (alloc : Bool) (junk : Nat → Nat)
    (str : GbString) (cstr : List Nat) : Option GbString :=
  let len := cstr.length
  let grown :=
    if gb_string_capacity str < len then
      gb_string_make_space_for alloc junk str (len - gb_string_length str)
    else some str
  match grown with
  | none => none
  | some s =>
    some { len := len, cap := s.cap, data := (memcpyAt s.data 0 cstr).set len 0 }

/-- gb_string_allocation_size: header size plus capacity.  The header holds
two size_t fields; we report only the payload part, the constant header
size carrying no information in the model. -/
def gb_string_allocation_size (str : GbString) : Nat :=
  gb_string_capacity str

/-- gb_strings_are_equal: lengths equal and payload bytes equal
position-wise. -/
def gb_strings_are_equal (lhs rhs : GbString) : Bool :=
  if gb_string_length lhs ≠ gb_string_length rhs then false
  else (List.range (gb_string_length lhs)).all
    (fun i => lhs.data.getD i 0 == rhs.data.getD i 0)

/-- First while loop of gb_trim_string: advance `start_pos` (index `sp`)
while `start_pos <= end` (i.e. `sp < len`) and the byte under it is
matched by strchr on the cut set.  The loop runs at most `len` steps, so it
is written with structural fuel; `gb_trim_string` passes `len` as fuel,
which always suffices (see the loop lemmas below). -/
def trimStart (data cut : List Nat) (len : Nat) : Nat → Nat → Nat
  | 0, sp => sp
  | fuel + 1, sp =>
    if sp < len ∧ strchrB cut (data.getD sp 0) = true then
      trimStart data cut len fuel (sp + 1)
    else sp

/-- Second while loop of gb_trim_string: retreat `end_pos` (index `ep`,
an integer because `end = str + len - 1` is one before the buffer when
`len = 0`) while it is strictly after `start_pos` and its byte is matched
by strchr on the cut set; again with structural fuel (at most `len` steps
are possible). -/
def trimEnd (data cut : List Nat) (sp : Nat) : Nat → Int → Int
  | 0, ep => ep
  | fuel + 1, ep =>
    if ep > (sp : Int) ∧ strchrB cut (data.getD ep.toNat 0) = true then
      trimEnd data cut sp fuel (ep - 1)
    else ep

/-- gb_trim_string: runs the two cursor loops, computes the surviving
length, memmoves the surviving span to offset 0 when `start_pos` moved,
writes the terminator at the new length and stores it.  Capacity is not
touched. -/
def gb_trim_string (str : GbString) (cut_set : List Nat) : GbString :=
  let sp := trimStart str.data cut_set str.len str.len 0
  let ep := trimEnd str.data cut_set sp str.len ((str.len : Int) - 1)
  let len := if (sp : Int) > ep then 0 else (ep - (sp : Int) + 1).toNat
  let moved :=
    if sp = 0 then str.data
    else ((str.data.drop sp).take len) ++ str.data.drop len
  { len := len, cap := str.cap, data := moved.set len 0 }

/-- Well-formedness of a live buffer: the length fits the capacity, the
payload region holds exactly `cap + 1` bytes, and the terminator invariant
`payload[length] = 0` holds. -/
def WF (str : GbString) : Prop :=
  str.len ≤ str.cap ∧ str.data.length = str.cap + 1 ∧ str.data.getD str.len 1 = 0

instance : DecidablePred WF := fun s => by
  unfold WF; infer_instance

/-- The payload of a buffer: its first `len` region bytes. -/
def payload (str : GbString) : List Nat :=
  str.data.take str.len

/-- Drop the maximal trailing run of bytes satisfying `p`. -/
def dropTrailingWhile (p : Nat → Bool) (l : List Nat) : List Nat :=
  (l.reverse.dropWhile p).reverse

/-- Modelled from the spec: trim removes the maximal leading run and then
the maximal trailing run of bytes satisfying the membership predicate
`p`. -/
def trimPayloadSpec (p : Nat → Bool) (l : List Nat) : List Nat :=
  dropTrailingWhile p (l.dropWhile p)

/-- Modelled from the spec: the payload that trim should produce with
plain cut-set membership (a byte survives the cursors unless it is one of
the listed cut-set bytes), as the spec's trim algorithm reads. -/
def gb_trim_spec (str : GbString) (cut_set : List Nat) : List Nat :=
  trimPayloadSpec (fun b => decide (b ∈ cut_set)) (payload str)

/-- The buffer holding the spec's trim example payload
Ab.;!...AHello World       ?? (29 bytes, seven blanks before the two
question marks), as produced by construction from those bytes. -/
def trimExample : GbString :=
  { len := 29, cap := 29,
    data := [65, 98, 46, 59, 33, 46, 46, 46, 65, 72, 101, 108, 108, 111, 32,
             87, 111, 114, 108, 100, 32, 32, 32, 32, 32, 32, 32, 63, 63, 0] }

/-- The bytes of the spec's example cut set Ab.;!. ? -/
def trimExampleCut : List Nat := [65, 98, 46, 59, 33, 46, 32, 63]

/-- The bytes of Hello World. -/
def helloWorldBytes : List Nat :=
  [72, 101, 108, 108, 111, 32, 87, 111, 114, 108, 100]

/-! ### List helper lemmas -/

theorem take_set_of_le {l : List Nat} {i n : Nat} {a : Nat} (h : n ≤ i) :
    (l.set i a).take n = l.take n := by
  apply List.ext_getElem (by simp)
  intro j h1 h2
  rw [List.getElem_take, List.getElem_take]
  apply List.getElem_set_ne
  simp only [List.length_take, List.length_set, lt_min_iff] at h1
  omega

theorem dropWhile_eq_drop (p : Nat → Bool) (l : List Nat) :
    l.dropWhile p = l.drop (l.takeWhile p).length := by
  induction l with
  | nil => rfl
  | cons a t ih =>
    by_cases h : p a
    · simp [List.dropWhile_cons, List.takeWhile_cons_of_pos h, h, ih]
    · simp [List.dropWhile_cons, List.takeWhile_cons_of_neg h, h]

theorem dropWhile_append_of_all (p : Nat → Bool) {a : List Nat} (b : List Nat)
    (ha : ∀ x ∈ a, p x = true) :
    (a ++ b).dropWhile p = b.dropWhile p := by
  rw [List.dropWhile_append]
  have : a.dropWhile p = [] := List.dropWhile_eq_nil_iff.mpr ha
  simp [this]

theorem dropWhile_eq_self_of_head (p : Nat → Bool) (l : List Nat)
    (h : ∀ hne : l ≠ [], p (l.head hne) = false) :
    l.dropWhile p = l := by
  cases l with
  | nil => rfl
  | cons a t =>
    have := h (by simp)
    simp only [List.head_cons] at this
    simp [List.dropWhile_cons, this]

theorem dropTrailingWhile_append (p : Nat → Bool) (u v : List Nat)
    (hne : u ≠ []) (hu : p (u.getLast hne) = false) (hv : ∀ x ∈ v, p x = true) :
    dropTrailingWhile p (u ++ v) = u := by
  unfold dropTrailingWhile
  rw [List.reverse_append]
  rw [dropWhile_append_of_all p u.reverse (by intro x hx; exact hv x (by simpa using hx))]
  rw [dropWhile_eq_self_of_head p u.reverse (by
    intro hne2
    rw [List.head_reverse]
    exact hu)]
  exact List.reverse_reverse u

theorem dropTrailingWhile_length_le (p : Nat → Bool) (l : List Nat) :
    (dropTrailingWhile p l).length ≤ l.length := by
  unfold dropTrailingWhile
  calc (l.reverse.dropWhile p).reverse.length
      = (l.reverse.dropWhile p).length := List.length_reverse _
    _ ≤ l.reverse.length := (List.dropWhile_suffix p).length_le
    _ = l.length := List.length_reverse _

theorem trimPayloadSpec_length_le (p : Nat → Bool) (l : List Nat) :
    (trimPayloadSpec p l).length ≤ l.length := by
  unfold trimPayloadSpec
  calc (dropTrailingWhile p (l.dropWhile p)).length
      ≤ (l.dropWhile p).length := dropTrailingWhile_length_le p _
    _ ≤ l.length := (List.dropWhile_suffix p).length_le

theorem strchrB_zero (cs : List Nat) : strchrB cs 0 = true := by
  induction cs with
  | nil => rfl
  | cons b rest ih => simp [strchrB, ih]

/-! ### Cursor loop lemmas for gb_trim_string -/

theorem trimStart_eq (data cut : List Nat) (len : Nat) (hlen : len ≤ data.length) :
    ∀ fuel sp : Nat, sp ≤ len → len ≤ sp + fuel →
      trimStart data cut len fuel sp
        = sp + (((data.take len).drop sp).takeWhile (strchrB cut)).length := by
  intro fuel
  induction fuel with
  | zero =>
    intro sp h1 h2
    have hnil : (data.take len).drop sp = [] :=
      List.drop_eq_nil_of_le (by rw [List.length_take]; omega)
    simp [trimStart, hnil]
  | succ fuel ih =>
    intro sp h1 h2
    simp only [trimStart]
    by_cases hx : sp < len ∧ strchrB cut (data.getD sp 0) = true
    · have hxd : sp < data.length := lt_of_lt_of_le hx.1 hlen
      have hdrop : (data.take len).drop sp
          = data[sp] :: (data.take len).drop (sp + 1) := by
        rw [List.drop_eq_getElem_cons (by
          rw [List.length_take]; omega : sp < (data.take len).length)]
        rw [List.getElem_take]
      have hmem : strchrB cut (data[sp]) = true := by
        rw [← List.getD_eq_getElem data 0 hxd]; exact hx.2
      rw [if_pos hx, ih (sp + 1) (by omega) (by omega), hdrop,
        List.takeWhile_cons_of_pos hmem]
      simp only [List.length_cons]
      omega
    · rw [if_neg hx]
      rcases Nat.lt_or_ge sp len with hlt | hge
      · have hxd : sp < data.length := lt_of_lt_of_le hlt hlen
        have hmem : ¬ strchrB cut (data[sp]) = true := by
          intro hc
          exact hx ⟨hlt, by rwa [List.getD_eq_getElem data 0 hxd]⟩
        have hdrop : (data.take len).drop sp
            = data[sp] :: (data.take len).drop (sp + 1) := by
          rw [List.drop_eq_getElem_cons (by
            rw [List.length_take]; omega : sp < (data.take len).length)]
          rw [List.getElem_take]
        rw [hdrop, List.takeWhile_cons_of_neg hmem]
        simp
      · have hnil : (data.take len).drop sp = [] :=
          List.drop_eq_nil_of_le (by rw [List.length_take]; omega)
        rw [hnil]
        simp

theorem trimStart_zero (data cut : List Nat) (len : Nat) (hlen : len ≤ data.length) :
    trimStart data cut len len 0
      = ((data.take len).takeWhile (strchrB cut)).length := by
  simpa using trimStart_eq data cut len hlen len 0 (Nat.zero_le _) (by omega)

theorem trimEnd_le (data cut : List Nat) (sp : Nat) :
    ∀ (fuel : Nat) (ep : Int), trimEnd data cut sp fuel ep ≤ ep := by
  intro fuel
  induction fuel with
  | zero => intro ep; exact le_refl ep
  | succ fuel ih =>
    intro ep
    simp only [trimEnd]
    by_cases hcond : ep > (sp : Int) ∧ strchrB cut (data.getD ep.toNat 0) = true
    · rw [if_pos hcond]
      have := ih (ep - 1)
      omega
    · rw [if_neg hcond]

theorem trimEnd_ge (data cut : List Nat) (sp : Nat) :
    ∀ (fuel : Nat) (ep : Int),
      (sp : Int) ≤ ep → (sp : Int) ≤ trimEnd data cut sp fuel ep := by
  intro fuel
  induction fuel with
  | zero => intro ep h; exact h
  | succ fuel ih =>
    intro ep h
    simp only [trimEnd]
    by_cases hcond : ep > (sp : Int) ∧ strchrB cut (data.getD ep.toNat 0) = true
    · rw [if_pos hcond]
      exact ih (ep - 1) (by omega)
    · rw [if_neg hcond]
      exact h

theorem trimEnd_exit (data cut : List Nat) (sp : Nat) :
    ∀ (fuel : Nat) (ep : Int), ep ≤ (sp : Int) + fuel →
      ¬(trimEnd data cut sp fuel ep > (sp : Int) ∧
        strchrB cut (data.getD (trimEnd data cut sp fuel ep).toNat 0) = true) := by
  intro fuel
  induction fuel with
  | zero =>
    intro ep hle hcon
    rw [show trimEnd data cut sp 0 ep = ep from rfl] at hcon
    exact absurd hcon.1 (by omega)
  | succ fuel ih =>
    intro ep hle
    simp only [trimEnd]
    by_cases hcond : ep > (sp : Int) ∧ strchrB cut (data.getD ep.toNat 0) = true
    · rw [if_pos hcond]
      exact ih (ep - 1) (by omega)
    · rw [if_neg hcond]
      exact hcond

theorem trimEnd_mem (data cut : List Nat) (sp : Nat) :
    ∀ (fuel : Nat) (ep j : Int), trimEnd data cut sp fuel ep < j → j ≤ ep →
      strchrB cut (data.getD j.toNat 0) = true := by
  intro fuel
  induction fuel with
  | zero =>
    intro ep j hj1 hj2
    rw [show trimEnd data cut sp 0 ep = ep from rfl] at hj1
    exact absurd hj2 (by omega)
  | succ fuel ih =>
    intro ep j hj1 hj2
    simp only [trimEnd] at hj1
    by_cases hcond : ep > (sp : Int) ∧ strchrB cut (data.getD ep.toNat 0) = true
    · rw [if_pos hcond] at hj1
      rcases lt_or_le j ep with hlt | hge
      · exact ih (ep - 1) j hj1 (by omega)
      · have hje : j = ep := le_antisymm hj2 hge
        subst hje
        exact hcond.2
    · rw [if_neg hcond] at hj1
      exact absurd hj2 (by omega)

/-! ### getD bridging lemmas -/

theorem getD_drop (l : List Nat) (n i d : Nat) :
    (l.drop n).getD i d = l.getD (n + i) d := by
  rcases Nat.lt_or_ge (n + i) l.length with h | h
  · rw [List.getD_eq_getElem _ _ (by rw [List.length_drop]; omega : i < (l.drop n).length),
      List.getD_eq_getElem _ _ h]
    exact List.getElem_drop l
  · rw [List.getD_eq_default _ _ (by rw [List.length_drop]; omega),
      List.getD_eq_default _ _ h]

theorem getD_take (l : List Nat) {n i : Nat} (d : Nat) (h : i < n) :
    (l.take n).getD i d = l.getD i d := by
  rcases Nat.lt_or_ge i l.length with hi | hi
  · rw [List.getD_eq_getElem _ _ (by rw [List.length_take]; omega : i < (l.take n).length),
      List.getD_eq_getElem _ _ hi]
    exact List.getElem_take l
  · rw [List.getD_eq_default _ _ (by rw [List.length_take]; omega),
      List.getD_eq_default _ _ hi]

theorem takeWhile_length_getD (p : Nat → Bool) (l : List Nat)
    (h : (l.takeWhile p).length < l.length) :
    p (l.getD (l.takeWhile p).length 0) = false := by
  induction l with
  | nil => simp at h
  | cons a t ih =>
    by_cases hpa : p a
    · rw [List.takeWhile_cons_of_pos hpa] at h ⊢
      simp only [List.length_cons] at h ⊢
      rw [List.getD_cons_succ]
      exact ih (by omega)
    · rw [List.takeWhile_cons_of_neg hpa]
      simp only [List.length_nil, List.getD_cons_zero]
      rwa [Bool.not_eq_true] at hpa

/-- If the first `L` entries of `r` end in a byte failing `p` and every
entry from `L` on satisfies `p`, then dropping the maximal trailing run
keeps exactly the first `L` entries. -/
theorem dropTrailingWhile_eq_take (p : Nat → Bool) (r : List Nat) (L : Nat)
    (hL : 0 < L) (hLr : L ≤ r.length)
    (hlast : p (r.getD (L - 1) 0) = false)
    (hrest : ∀ j, L ≤ j → j < r.length → p (r.getD j 0) = true) :
    dropTrailingWhile p r = r.take L := by
  have hulen : (r.take L).length = L := by rw [List.length_take]; omega
  have hune : r.take L ≠ [] := List.ne_nil_of_length_pos (by omega)
  have hres := dropTrailingWhile_append p (r.take L) (r.drop L) hune ?_ ?_
  · rw [List.take_append_drop] at hres
    exact hres
  · rw [List.getLast_eq_getElem]
    have hidx : (r.take L).length - 1 < (r.take L).length := by omega
    rw [← List.getD_eq_getElem (r.take L) 0 hidx]
    rw [getD_take r 0 (by omega : (r.take L).length - 1 < L)]
    rw [hulen]
    exact hlast
  · intro x hx
    obtain ⟨i, hi, hxe⟩ := List.mem_iff_getElem.mp hx
    rw [← List.getD_eq_getElem (r.drop L) 0 hi] at hxe
    rw [getD_drop] at hxe
    subst hxe
    exact hrest (L + i) (by omega) (by rw [List.length_drop] at hi; omega)

theorem getD_set_self (l : List Nat) (i a d : Nat) (h : i < l.length) :
    (l.set i a).getD i d = a := by
  rw [List.getD_eq_getElem _ _ (by rw [List.length_set]; omega)]
  exact List.getElem_set_self _

/-! ### Characterization of gb_trim_string -/

theorem gb_trim_string_char (str : GbString) (cs : List Nat) (h : WF str) :
    (gb_trim_string str cs).len = (trimPayloadSpec (strchrB cs) (payload str)).length ∧
    payload (gb_trim_string str cs) = trimPayloadSpec (strchrB cs) (payload str) ∧
    (gb_trim_string str cs).cap = str.cap ∧
    (gb_trim_string str cs).data.length = str.data.length ∧
    (gb_trim_string str cs).data.getD (gb_trim_string str cs).len 1 = 0 := by
  obtain ⟨hlc, hdl, hterm⟩ := h
  have hld : str.len ≤ str.data.length := by omega
  have hp : (str.data.take str.len).length = str.len := by
    rw [List.length_take]; omega
  have hsp_eq : trimStart str.data cs str.len str.len 0
      = ((str.data.take str.len).takeWhile (strchrB cs)).length :=
    trimStart_zero _ _ _ hld
  set sp := trimStart str.data cs str.len str.len 0 with hsp_def
  have hsple : sp ≤ str.len := by
    rw [hsp_eq]
    calc ((str.data.take str.len).takeWhile (strchrB cs)).length
        ≤ (str.data.take str.len).length := (List.takeWhile_prefix _).length_le
      _ = str.len := hp
  have hdropW : (str.data.take str.len).dropWhile (strchrB cs)
      = (str.data.take str.len).drop sp := by
    rw [dropWhile_eq_drop, hsp_eq]
  set ep := trimEnd str.data cs sp str.len ((str.len : Int) - 1) with hep_def
  rcases Nat.lt_or_ge sp str.len with hB | hA
  case inr =>
    -- all payload bytes are in the (strchr) cut set: empty result
    have hsp_len : sp = str.len := le_antisymm hsple hA
    have hw_nil : (str.data.take str.len).dropWhile (strchrB cs) = [] := by
      rw [hdropW, hsp_len]
      exact List.drop_eq_nil_of_le (by omega)
    have hq : trimPayloadSpec (strchrB cs) (payload str) = [] := by
      unfold trimPayloadSpec payload
      rw [hw_nil]
      rfl
    have hepA : ep ≤ (str.len : Int) - 1 := by
      rw [hep_def]
      exact trimEnd_le str.data cs sp str.len ((str.len : Int) - 1)
    have hcond : (sp : Int) > ep := by omega
    have hres : gb_trim_string str cs
        = { len := 0, cap := str.cap,
            data := (if sp = 0 then str.data
                     else ((str.data.drop sp).take 0) ++ str.data.drop 0).set 0 0 } := by
      simp only [gb_trim_string]
      rw [← hsp_def, ← hep_def, if_pos hcond]
    have hmoved : (if sp = 0 then str.data
        else ((str.data.drop sp).take 0) ++ str.data.drop 0) = str.data := by
      rcases eq_or_ne sp 0 with h0 | h0
      · rw [if_pos h0]
      · rw [if_neg h0]
        simp
    rw [hres, hmoved, hq]
    refine ⟨rfl, ?_, rfl, by simp, ?_⟩
    · unfold payload
      simp
    · exact getD_set_self _ _ _ _ (by omega)
  case inl =>
    -- a byte outside the cut set survives; the cursors find the span
    have hspd : sp < str.data.length := by omega
    have hsp_mem : strchrB cs (str.data.getD sp 0) = false := by
      have h1 := takeWhile_length_getD (strchrB cs) (str.data.take str.len)
        (by rw [← hsp_eq, hp]; exact hB)
      rw [← hsp_eq] at h1
      rwa [getD_take str.data 0 hB] at h1
    have hge : (sp : Int) ≤ ep := trimEnd_ge _ _ _ _ _ (by omega)
    have hle : ep ≤ (str.len : Int) - 1 := trimEnd_le _ _ _ _ _
    set e := ep.toNat with he_def
    have he : (e : Int) = ep := Int.toNat_of_nonneg (by omega)
    have hesp : sp ≤ e := by omega
    have helen : e < str.len := by omega
    have hnot_e : strchrB cs (str.data.getD e 0) = false := by
      rcases eq_or_lt_of_le hge with heq | hlt
      · have : e = sp := by omega
        rw [this]
        exact hsp_mem
      · have hexit := trimEnd_exit str.data cs sp str.len ((str.len : Int) - 1)
          (by omega)
        rw [← hep_def] at hexit
        cases hbool : strchrB cs (str.data.getD e 0) with
        | false => rfl
        | true => exact absurd ⟨hlt, hbool⟩ hexit
    have hrun : ∀ j : Nat, e < j → j < str.len →
        strchrB cs (str.data.getD j 0) = true := by
      intro j hj1 hj2
      have := trimEnd_mem str.data cs sp str.len ((str.len : Int) - 1) (j : Int)
        (by rw [← hep_def]; omega) (by omega)
      simpa using this
    set L := e - sp + 1 with hL_def
    have hLpos : 0 < L := by omega
    have hspL : sp + L = e + 1 := by omega
    have hLlen : sp + L ≤ str.len := by omega
    -- the spec-side trimmed payload is the span found by the cursors
    have hrlen : ((str.data.take str.len).drop sp).length = str.len - sp := by
      rw [List.length_drop, hp]
    have hq : trimPayloadSpec (strchrB cs) (payload str)
        = ((str.data.take str.len).drop sp).take L := by
      unfold trimPayloadSpec payload
      rw [hdropW]
      apply dropTrailingWhile_eq_take
      · exact hLpos
      · omega
      · rw [getD_drop, getD_take str.data 0 (by omega : sp + (L - 1) < str.len)]
        have hidx : sp + (L - 1) = e := by omega
        rw [hidx]
        exact hnot_e
      · intro j hj1 hj2
        rw [getD_drop, getD_take str.data 0 (by rw [hrlen] at hj2; omega)]
        exact hrun (sp + j) (by omega) (by rw [hrlen] at hj2; omega)
    have hqlen : (((str.data.take str.len).drop sp).take L).length = L := by
      rw [List.length_take, hrlen]
      omega
    have hres : gb_trim_string str cs
        = { len := L, cap := str.cap,
            data := (if sp = 0 then str.data
                     else ((str.data.drop sp).take L) ++ str.data.drop L).set L 0 } := by
      simp only [gb_trim_string]
      rw [← hsp_def, ← hep_def, if_neg (by omega : ¬((sp : Int) > ep))]
      have htoNat : (ep - (sp : Int) + 1).toNat = L := by omega
      rw [htoNat]
    -- the moved span agrees with the spec payload
    have hu_eq : (str.data.drop sp).take L = ((str.data.take str.len).drop sp).take L := by
      rw [List.drop_take]
      rw [List.take_take]
      congr 1
      omega
    have hmlen : (if sp = 0 then str.data
        else ((str.data.drop sp).take L) ++ str.data.drop L).length
        = str.data.length := by
      rcases eq_or_ne sp 0 with h0 | h0
      · rw [if_pos h0]
      · rw [if_neg h0, List.length_append, List.length_take, List.length_drop,
          List.length_drop]
        omega
    rw [hres, hq]
    refine ⟨by rw [hqlen], ?_, rfl, by rw [List.length_set, hmlen],
      getD_set_self _ _ _ _ (by rw [hmlen]; omega)⟩
    · unfold payload
      have hset : ((if sp = 0 then str.data
          else ((str.data.drop sp).take L) ++ str.data.drop L).set L 0).take L
          = (if sp = 0 then str.data
             else ((str.data.drop sp).take L) ++ str.data.drop L).take L :=
        take_set_of_le (le_refl L)
      rw [hset]
      rcases eq_or_ne sp 0 with h0 | h0
      · rw [if_pos h0, ← hu_eq, h0, List.drop_zero]
      · rw [if_neg h0]
        have hfirst : ((str.data.drop sp).take L).length = L := by
          rw [List.length_take, List.length_drop]
          omega
        rw [List.take_append_of_le_length (by omega)]
        rw [List.take_take, min_self, hu_eq]

/-- Trimming preserves well-formedness. -/
theorem gb_trim_string_wf (str : GbString) (cs : List Nat) (h : WF str) :
    WF (gb_trim_string str cs) := by
  obtain ⟨hlen, hpay, hcap, hdlen, hterm⟩ := gb_trim_string_char str cs h
  obtain ⟨h1, h2, h3⟩ := h
  refine ⟨?_, ?_, hterm⟩
  · rw [hlen, hcap]
    calc (trimPayloadSpec (strchrB cs) (payload str)).length
        ≤ (payload str).length := trimPayloadSpec_length_le _ _
      _ ≤ str.len := by unfold payload; rw [List.length_take]; omega
      _ ≤ str.cap := h1
  · rw [hdlen, hcap, h2]

/-! ### Idempotence of the trimmed-payload function -/

theorem headD_of_ne_nil (l : List Nat) (h : l ≠ []) (d : Nat) :
    l.headD d = l.head h := by
  cases l with
  | nil => exact absurd rfl h
  | cons a t => rfl

theorem dropWhile_headD_false (p : Nat → Bool) (l : List Nat)
    (h : l.dropWhile p ≠ []) :
    p ((l.dropWhile p).headD 0) = false := by
  rw [headD_of_ne_nil _ h]
  exact List.head_dropWhile_not p l h

theorem dropWhile_eq_self_of_headD (p : Nat → Bool) (l : List Nat)
    (h : p (l.headD 0) = false) :
    l.dropWhile p = l := by
  cases l with
  | nil => rfl
  | cons a t =>
    simp only [List.headD_cons] at h
    simp [List.dropWhile_cons, h]

theorem getLastD_eq_reverse_headD (l : List Nat) (d : Nat) :
    l.getLastD d = l.reverse.headD d := by
  rw [List.getLastD_eq_getLast?, List.headD_eq_head?, List.head?_reverse]

theorem trimPayloadSpec_idem (p : Nat → Bool) (l : List Nat) :
    trimPayloadSpec p (trimPayloadSpec p l) = trimPayloadSpec p l := by
  rcases eq_or_ne (trimPayloadSpec p l) [] with hq | hq
  · rw [hq]; rfl
  · have hqrev : (trimPayloadSpec p l).reverse = (l.dropWhile p).reverse.dropWhile p := by
      unfold trimPayloadSpec dropTrailingWhile
      rw [List.reverse_reverse]
    have hwne : l.dropWhile p ≠ [] := by
      intro hw
      apply hq
      unfold trimPayloadSpec dropTrailingWhile
      rw [hw]
      rfl
    have hlast : p ((trimPayloadSpec p l).getLastD 0) = false := by
      rw [getLastD_eq_reverse_headD, hqrev]
      exact dropWhile_headD_false p (l.dropWhile p).reverse
        (by rw [← hqrev]; simpa [List.reverse_eq_nil_iff] using hq)
    have hpre : trimPayloadSpec p l <+: l.dropWhile p := by
      rw [← List.reverse_suffix, hqrev]
      exact List.dropWhile_suffix p
    have hhead : p ((trimPayloadSpec p l).headD 0) = false := by
      obtain ⟨t, ht⟩ := hpre
      have hw : p ((l.dropWhile p).headD 0) = false := dropWhile_headD_false p l hwne
      rw [← ht] at hw
      cases hql : trimPayloadSpec p l with
      | nil => exact absurd hql hq
      | cons a s =>
        rw [hql] at hw
        simpa using hw
    calc trimPayloadSpec p (trimPayloadSpec p l)
        = dropTrailingWhile p ((trimPayloadSpec p l).dropWhile p) := rfl
      _ = dropTrailingWhile p (trimPayloadSpec p l) := by
            rw [dropWhile_eq_self_of_headD p _ hhead]
      _ = ((trimPayloadSpec p l).reverse.dropWhile p).reverse := rfl
      _ = ((trimPayloadSpec p l).reverse).reverse := by
            rw [dropWhile_eq_self_of_headD p _ (by
              rw [← getLastD_eq_reverse_headD]
              exact hlast)]
      _ = trimPayloadSpec p l := List.reverse_reverse _

/-! ### Behaviour of the growth primitive -/

theorem freshBytes_length (junk : Nat → Nat) (k : Nat) :
    (freshBytes junk k).length = k := by
  simp [freshBytes]

theorem getD_append_left (A B : List Nat) {i : Nat} (d : Nat) (h : i < A.length) :
    (A ++ B).getD i d = A.getD i d := by
  rw [List.getD_eq_getElem _ _ (by rw [List.length_append]; omega),
    List.getD_eq_getElem _ _ h]
  exact List.getElem_append_left h

theorem gb_string_make_space_for_of_avail (alloc : Bool) (junk : Nat → Nat)
    (str : GbString) (add_len : Nat)
    (h : gb_string_available_space str ≥ add_len) :
    gb_string_make_space_for alloc junk str add_len = some str := by
  simp only [gb_string_make_space_for]
  rw [if_pos h]

theorem gb_string_make_space_for_fail (junk : Nat → Nat)
    (str : GbString) (add_len : Nat)
    (h : gb_string_available_space str < add_len) :
    gb_string_make_space_for false junk str add_len = none := by
  simp only [gb_string_make_space_for, gb__string_realloc, gb_string_length]
  rw [if_neg (by omega : ¬ gb_string_available_space str ≥ add_len)]
  rw [if_neg (by omega : ¬ (str.len + add_len + 1 ≤ str.len + 1))]
  rfl

theorem gb_string_make_space_for_grow (junk : Nat → Nat)
    (str : GbString) (add_len : Nat)
    (h : ¬ gb_string_available_space str ≥ add_len) :
    gb_string_make_space_for true junk str add_len
      = some { len := str.len, cap := str.len + add_len,
               data := str.data.take (str.len + 1) ++ freshBytes junk add_len } := by
  simp only [gb_string_make_space_for, gb__string_realloc, gb_string_length]
  rw [if_neg h]
  rw [if_neg (by omega : ¬ (str.len + add_len + 1 ≤ str.len + 1))]
  have harith : str.len + add_len + 1 - (str.len + 1) = add_len := by omega
  simp [harith]

theorem gb_string_make_space_for_char (alloc : Bool) (junk : Nat → Nat)
    (str s : GbString) (add : Nat) (h : WF str)
    (hr : gb_string_make_space_for alloc junk str add = some s) :
    s.len = str.len ∧ str.cap ≤ s.cap ∧ str.len + add ≤ s.cap ∧
    s.data.length = s.cap + 1 ∧
    s.data.take (str.len + 1) = str.data.take (str.len + 1) ∧
    (gb_string_available_space str ≥ add → s = str) ∧
    (gb_string_available_space str < add → s.cap = str.len + add) := by
  obtain ⟨h1, h2, h3⟩ := h
  by_cases hav : gb_string_available_space str ≥ add
  · rw [gb_string_make_space_for_of_avail alloc junk str add hav] at hr
    have hs : s = str := by injection hr with hr; exact hr.symm
    subst hs
    have hcap : s.len + add ≤ s.cap := by
      unfold gb_string_available_space at hav
      split at hav <;> omega
    exact ⟨rfl, le_refl _, hcap, h2, rfl, fun _ => rfl,
      fun hc => absurd hc (by omega)⟩
  · cases alloc with
    | false =>
      rw [gb_string_make_space_for_fail junk str add (by omega)] at hr
      exact absurd hr (by simp)
    | true =>
      rw [gb_string_make_space_for_grow junk str add hav] at hr
      injection hr with hr
      subst hr
      have hav2 : str.cap < str.len + add := by
        unfold gb_string_available_space at hav
        split at hav <;> omega
      refine ⟨rfl, (by omega : str.cap ≤ str.len + add), le_refl _, ?_, ?_,
        fun hc => absurd hc hav, fun _ => rfl⟩
      · show (str.data.take (str.len + 1) ++ freshBytes junk add).length
            = (str.len + add) + 1
        rw [List.length_append, List.length_take, freshBytes_length]
        omega
      · show (str.data.take (str.len + 1) ++ freshBytes junk add).take (str.len + 1)
            = str.data.take (str.len + 1)
        rw [List.take_append_of_le_length (by rw [List.length_take]; omega),
          List.take_take, min_self]

theorem gb_string_make_space_for_wf (alloc : Bool) (junk : Nat → Nat)
    (str s : GbString) (add : Nat) (h : WF str)
    (hr : gb_string_make_space_for alloc junk str add = some s) : WF s := by
  obtain ⟨hl, hc, hca, hdl, htk, _, _⟩ :=
    gb_string_make_space_for_char alloc junk str s add h hr
  obtain ⟨h1, h2, h3⟩ := h
  refine ⟨by omega, hdl, ?_⟩
  rw [hl]
  have e1 : s.data.getD str.len 1 = (s.data.take (str.len + 1)).getD str.len 1 :=
    (getD_take s.data 1 (by omega)).symm
  rw [e1, htk, getD_take str.data 1 (by omega)]
  exact h3

/-- Reserve preserves the payload seen through `payload`. -/
theorem gb_string_make_space_for_payload (alloc : Bool) (junk : Nat → Nat)
    (str s : GbString) (add : Nat) (h : WF str)
    (hr : gb_string_make_space_for alloc junk str add = some s) :
    s.data.take str.len = str.data.take str.len := by
  obtain ⟨hsl, hsc, hsca, hsdl, hstk, _, _⟩ :=
    gb_string_make_space_for_char alloc junk str s add h hr
  have e1 : s.data.take str.len = (s.data.take (str.len + 1)).take str.len := by
    rw [List.take_take, min_eq_left (by omega)]
  rw [e1, hstk, List.take_take, min_eq_left (by omega)]

/-! ### Behaviour of append -/

theorem gb_append_string_length_fail (junk : Nat → Nat) (str : GbString)
    (other : List Nat) (other_len : Nat)
    (h : gb_string_available_space str < other_len) :
    gb_append_string_length false junk str other other_len = none := by
  simp only [gb_append_string_length, gb_string_length]
  rw [gb_string_make_space_for_fail junk str other_len h]

theorem gb_append_string_length_char (alloc : Bool) (junk : Nat → Nat)
    (str : GbString) (other : List Nat) (other_len : Nat) (r : GbString)
    (h : WF str) (ho : other_len ≤ other.length)
    (hr : gb_append_string_length alloc junk str other other_len = some r) :
    r.len = str.len + other_len ∧
    str.cap ≤ r.cap ∧ str.len + other_len ≤ r.cap ∧
    r.data.length = r.cap + 1 ∧
    payload r = payload str ++ other.take other_len ∧
    r.data.getD r.len 1 = 0 := by
  simp only [gb_append_string_length, gb_string_length] at hr
  cases hmsf : gb_string_make_space_for alloc junk str other_len with
  | none => rw [hmsf] at hr; exact absurd hr (by simp)
  | some s =>
    rw [hmsf] at hr
    simp only [Option.some.injEq] at hr
    obtain ⟨hsl, hsc, hsca, hsdl, hstk, _, _⟩ :=
      gb_string_make_space_for_char alloc junk str s other_len h hmsf
    have hpay := gb_string_make_space_for_payload alloc junk str s other_len h hmsf
    obtain ⟨h1, h2, h3⟩ := h
    have hsrc : (other.take other_len).length = other_len := by
      rw [List.length_take]; omega
    have hA : (s.data.take str.len).length = str.len := by
      rw [List.length_take]; omega
    subst hr
    refine ⟨rfl, hsc, hsca, ?_, ?_, ?_⟩
    · show ((memcpyAt s.data str.len (other.take other_len)).set
          (str.len + other_len) 0).length = s.cap + 1
      rw [List.length_set]
      unfold memcpyAt
      rw [List.length_append, List.length_append, hA, hsrc, List.length_drop]
      omega
    · show ((memcpyAt s.data str.len (other.take other_len)).set
          (str.len + other_len) 0).take (str.len + other_len)
        = payload str ++ other.take other_len
      rw [take_set_of_le (le_refl _)]
      unfold memcpyAt
      rw [List.take_left' (by rw [List.length_append, hA, hsrc])]
      unfold payload
      rw [hpay]
    · show ((memcpyAt s.data str.len (other.take other_len)).set
          (str.len + other_len) 0).getD (str.len + other_len) 1 = 0
      apply getD_set_self
      unfold memcpyAt
      rw [List.length_append, List.length_append, hA, hsrc, List.length_drop]
      omega

theorem gb_append_string_length_wf (alloc : Bool) (junk : Nat → Nat)
    (str : GbString) (other : List Nat) (other_len : Nat) (r : GbString)
    (h : WF str) (ho : other_len ≤ other.length)
    (hr : gb_append_string_length alloc junk str other other_len = some r) :
    WF r := by
  obtain ⟨hl, hc, hca, hdl, hp, ht⟩ :=
    gb_append_string_length_char alloc junk str other other_len r h ho hr
  exact ⟨by omega, by omega, ht⟩

/-! ### Behaviour of assign -/

theorem set_append_terminator (cstr E : List Nat) (hE : cstr.length < E.length) :
    ((cstr ++ E.drop cstr.length).set cstr.length 0).take (cstr.length + 1)
      = cstr ++ [0] := by
  have hD : E.drop cstr.length ≠ [] :=
    List.ne_nil_of_length_pos (by rw [List.length_drop]; omega)
  obtain ⟨d0, rest, hcons⟩ := List.exists_cons_of_ne_nil hD
  rw [hcons, List.set_append, if_neg (lt_irrefl _), Nat.sub_self]
  have hset0 : (d0 :: rest).set 0 0 = 0 :: rest := rfl
  rw [hset0, List.take_append 1]
  simp

theorem gb_set_string_of_fits (alloc : Bool) (junk : Nat → Nat)
    (str : GbString) (cstr : List Nat)
    (hfit : ¬ gb_string_capacity str < cstr.length) :
    gb_set_string alloc junk str cstr
      = some { len := cstr.length, cap := str.cap,
               data := (memcpyAt str.data 0 cstr).set cstr.length 0 } := by
  simp only [gb_set_string]
  rw [if_neg hfit]

theorem gb_set_string_fail (junk : Nat → Nat) (str : GbString)
    (cstr : List Nat) (h : WF str) (hcl : str.cap < cstr.length) :
    gb_set_string false junk str cstr = none := by
  obtain ⟨h1, h2, h3⟩ := h
  have hav : gb_string_available_space str < cstr.length - gb_string_length str := by
    unfold gb_string_available_space gb_string_length
    split <;> omega
  simp only [gb_set_string, gb_string_capacity]
  rw [if_pos hcl, gb_string_make_space_for_fail junk str _ hav]

theorem gb_set_string_char (alloc : Bool) (junk : Nat → Nat)
    (str : GbString) (cstr : List Nat) (r : GbString) (h : WF str)
    (hr : gb_set_string alloc junk str cstr = some r) :
    r.len = cstr.length ∧ str.cap ≤ r.cap ∧ cstr.length ≤ r.cap ∧
    r.data.length = r.cap + 1 ∧
    r.data.take (cstr.length + 1) = cstr ++ [0] ∧
    r.data.getD r.len 1 = 0 ∧
    (cstr.length ≤ str.cap → r.cap = str.cap) ∧
    (str.cap < cstr.length → r.cap = cstr.length) := by
  have hwf := h
  obtain ⟨h1, h2, h3⟩ := h
  by_cases hcl : str.cap < cstr.length
  · -- growth path: reserve by exactly the shortfall
    have hav : gb_string_available_space str < cstr.length - gb_string_length str := by
      unfold gb_string_available_space gb_string_length
      split <;> omega
    simp only [gb_set_string, gb_string_capacity] at hr
    rw [if_pos hcl] at hr
    cases hmsf : gb_string_make_space_for alloc junk str
        (cstr.length - gb_string_length str) with
    | none => rw [hmsf] at hr; exact absurd hr (by simp)
    | some s =>
      rw [hmsf] at hr
      simp only [Option.some.injEq] at hr
      obtain ⟨hsl, hsc, hsca, hsdl, hstk, _, hgrow⟩ :=
        gb_string_make_space_for_char alloc junk str s _ hwf hmsf
      have hscap : s.cap = cstr.length := by
        rw [hgrow hav]
        unfold gb_string_length
        omega
      have hsd : cstr.length < s.data.length := by omega
      subst hr
      have hmem : memcpyAt s.data 0 cstr = cstr ++ s.data.drop cstr.length := by
        unfold memcpyAt
        simp
      refine ⟨rfl, ?_, ?_, ?_, ?_, ?_, ?_, ?_⟩
      · show str.cap ≤ s.cap
        omega
      · show cstr.length ≤ s.cap
        omega
      · show ((memcpyAt s.data 0 cstr).set cstr.length 0).length = s.cap + 1
        rw [List.length_set, hmem, List.length_append, List.length_drop]
        omega
      · show ((memcpyAt s.data 0 cstr).set cstr.length 0).take (cstr.length + 1)
            = cstr ++ [0]
        rw [hmem]
        exact set_append_terminator cstr s.data hsd
      · show ((memcpyAt s.data 0 cstr).set cstr.length 0).getD cstr.length 1 = 0
        apply getD_set_self
        rw [hmem, List.length_append, List.length_drop]
        omega
      · intro hfit
        omega
      · intro _
        show s.cap = cstr.length
        exact hscap
  · -- the new content fits: no reserve call
    rw [gb_set_string_of_fits alloc junk str cstr hcl] at hr
    simp only [Option.some.injEq] at hr
    have hsd : cstr.length < str.data.length := by omega
    subst hr
    have hmem : memcpyAt str.data 0 cstr = cstr ++ str.data.drop cstr.length := by
      unfold memcpyAt
      simp
    refine ⟨rfl, le_refl _, (by omega : cstr.length ≤ str.cap), ?_, ?_, ?_,
      fun _ => rfl, fun hc => absurd hc hcl⟩
    · show ((memcpyAt str.data 0 cstr).set cstr.length 0).length = str.cap + 1
      rw [List.length_set, hmem, List.length_append, List.length_drop]
      omega
    · show ((memcpyAt str.data 0 cstr).set cstr.length 0).take (cstr.length + 1)
          = cstr ++ [0]
      rw [hmem]
      exact set_append_terminator cstr str.data hsd
    · show ((memcpyAt str.data 0 cstr).set cstr.length 0).getD cstr.length 1 = 0
      apply getD_set_self
      rw [hmem, List.length_append, List.length_drop]
      omega

theorem gb_set_string_wf (alloc : Bool) (junk : Nat → Nat)
    (str : GbString) (cstr : List Nat) (r : GbString) (h : WF str)
    (hr : gb_set_string alloc junk str cstr = some r) : WF r := by
  obtain ⟨hl, hc, hca, hdl, htk, ht, _, _⟩ :=
    gb_set_string_char alloc junk str cstr r h hr
  exact ⟨by omega, hdl, ht⟩

/-! ### Construction and clear -/

theorem getD_append_length (A : List Nat) (c d : Nat) :
    (A ++ [c]).getD A.length d = c := by
  rw [List.getD_eq_getElem _ _ (by simp)]
  rw [List.getElem_append_right (le_refl A.length)]
  simp

theorem gb_make_string_length_wf (b : List Nat) (len : Nat) (hb : len ≤ b.length)
    (r : GbString) (hr : gb_make_string_length true (some b) len = some r) :
    WF r := by
  simp only [gb_make_string_length, if_pos, Option.some.injEq] at hr
  subst hr
  refine ⟨le_refl _, by simp [List.length_take]; omega, ?_⟩
  show (b.take len ++ [0]).getD len 1 = 0
  have h2 := getD_append_length (b.take len) 0 1
  rwa [show (b.take len).length = len by rw [List.length_take]; omega] at h2

theorem gb_make_string_length_none_wf (len : Nat) (r : GbString)
    (hr : gb_make_string_length true none len = some r) : WF r := by
  simp only [gb_make_string_length, if_pos, Option.some.injEq] at hr
  subst hr
  refine ⟨le_refl _, by simp, ?_⟩
  show (List.replicate (len + 1) 0).getD len 1 = 0
  have hlt : len < (List.replicate (len + 1) (0 : Nat)).length := by simp
  rw [List.getD_eq_getElem _ _ hlt]
  exact List.getElem_replicate 0 hlt

theorem gb_clear_string_wf (str : GbString) (h : WF str) :
    WF (gb_clear_string str) := by
  obtain ⟨h1, h2, h3⟩ := h
  refine ⟨Nat.zero_le _, by simp [gb_clear_string, h2], ?_⟩
  show (str.data.set 0 0).getD 0 1 = 0
  exact getD_set_self _ _ _ _ (by omega)

/-! ### Never freeing on failure -/

theorem gb__string_realloc_frees_false (n m : Nat) :
    gb__string_realloc_frees false n m = false := by
  unfold gb__string_realloc_frees
  split <;> rfl

theorem gb_string_make_space_for_frees_false (str : GbString) (add : Nat) :
    gb_string_make_space_for_frees false str add = false := by
  unfold gb_string_make_space_for_frees
  split
  · rfl
  · exact gb__string_realloc_frees_false _ _

/-! ### Strict shrinking of trim on boundary cut bytes -/

theorem headD_append_of_ne_nil (A B : List Nat) (d : Nat) (hA : A ≠ []) :
    (A ++ B).headD d = A.headD d := by
  cases A with
  | nil => exact absurd rfl hA
  | cons a t => rfl

theorem getLastD_append_of_ne_nil (u w : List Nat) (d : Nat) (hw : w ≠ []) :
    (u ++ w).getLastD d = w.getLastD d := by
  rw [getLastD_eq_reverse_headD, getLastD_eq_reverse_headD, List.reverse_append]
  exact headD_append_of_ne_nil _ _ _ (by simpa [List.reverse_eq_nil_iff] using hw)

theorem trimPayloadSpec_length_lt_of_head (p : Nat → Bool) (a : Nat) (t : List Nat)
    (ha : p a = true) :
    (trimPayloadSpec p (a :: t)).length < (a :: t).length := by
  unfold trimPayloadSpec
  have hdw : (a :: t).dropWhile p = t.dropWhile p := by
    simp [List.dropWhile_cons, ha]
  rw [hdw]
  calc (dropTrailingWhile p (t.dropWhile p)).length
      ≤ (t.dropWhile p).length := dropTrailingWhile_length_le _ _
    _ ≤ t.length := (List.dropWhile_suffix p).length_le
    _ < (a :: t).length := by simp

theorem trimPayloadSpec_length_lt_of_last (p : Nat → Bool) (l : List Nat)
    (hne : l ≠ []) (ha : p (l.getLastD 0) = true) :
    (trimPayloadSpec p l).length < l.length := by
  unfold trimPayloadSpec
  rcases eq_or_ne (l.dropWhile p) [] with hw | hw
  · rw [hw]
    show (dropTrailingWhile p []).length < l.length
    have hnil : dropTrailingWhile p ([] : List Nat) = [] := rfl
    rw [hnil]
    simpa [List.length_pos] using hne
  · have hlast : (l.dropWhile p).getLastD 0 = l.getLastD 0 := by
      obtain ⟨u, hu⟩ := (List.dropWhile_suffix p : l.dropWhile p <:+ l)
      conv_rhs => rw [← hu]
      exact (getLastD_append_of_ne_nil u _ 0 hw).symm
    have hlast2 : p ((l.dropWhile p).getLastD 0) = true := by
      rw [hlast]; exact ha
    have hshrink : (dropTrailingWhile p (l.dropWhile p)).length
        < (l.dropWhile p).length := by
      unfold dropTrailingWhile
      rw [List.length_reverse]
      cases hwr : (l.dropWhile p).reverse with
      | nil => exact absurd (by simpa [List.reverse_eq_nil_iff] using hwr) hw
      | cons b s =>
        have hb : b = (l.dropWhile p).getLastD 0 := by
          rw [getLastD_eq_reverse_headD, hwr]
          rfl
        rw [← hb] at hlast2
        rw [List.dropWhile_cons, if_pos hlast2]
        calc (s.dropWhile p).length
            ≤ s.length := (List.dropWhile_suffix p).length_le
          _ < (b :: s).length := by simp
          _ = (l.dropWhile p).reverse.length := by rw [hwr]
          _ = (l.dropWhile p).length := List.length_reverse _
    calc (dropTrailingWhile p (l.dropWhile p)).length
        < (l.dropWhile p).length := hshrink
      _ ≤ l.length := (List.dropWhile_suffix p).length_le

/-! ## Claims -/

/-- C1: for every buffer and every completed operation of the public surface
(construction from bytes or from a length, clear, append, assign, reserve,
trim), the resulting buffer satisfies length ≤ capacity and the byte at
payload[length] is 0 (together: `WF`). -/
theorem claim_C1_invariants :
    (∀ (b : List Nat) (len : Nat), len ≤ b.length →
      ∀ r, gb_make_string_length true (some b) len = some r → WF r) ∧
    (∀ (len : Nat) (r : GbString),
      gb_make_string_length true none len = some r → WF r) ∧
    (∀ s : GbString, WF s → WF (gb_clear_string s)) ∧
    (∀ (a : Bool) (j : Nat → Nat) (s : GbString) (add : Nat) (r : GbString),
      WF s → gb_string_make_space_for a j s add = some r → WF r) ∧
    (∀ (a : Bool) (j : Nat → Nat) (s : GbString) (other : List Nat)
        (olen : Nat) (r : GbString),
      WF s → olen ≤ other.length →
      gb_append_string_length a j s other olen = some r → WF r) ∧
    (∀ (a : Bool) (j : Nat → Nat) (s : GbString) (cstr : List Nat) (r : GbString),
      WF s → gb_set_string a j s cstr = some r → WF r) ∧
    (∀ (s : GbString) (cs : List Nat), WF s → WF (gb_trim_string s cs)) :=
  ⟨fun b len hb r hr => gb_make_string_length_wf b len hb r hr,
   fun len r hr => gb_make_string_length_none_wf len r hr,
   fun s hs => gb_clear_string_wf s hs,
   fun a j s add r hs hr => gb_string_make_space_for_wf a j s r add hs hr,
   fun a j s o olen r hs ho hr =>
     gb_append_string_length_wf a j s o olen r hs ho hr,
   fun a j s c r hs hr => gb_set_string_wf a j s c r hs hr,
   fun s cs hs => gb_trim_string_wf s cs hs⟩

/-- Witness for C1 at concrete inputs: each public operation applied to a
small well-formed buffer yields a well-formed buffer. -/
theorem claim_C1_invariants_witness :
    WF { len := 2, cap := 2, data := [7, 8, 0] } ∧
    WF { len := 1, cap := 1, data := [0, 0] } ∧
    WF (gb_clear_string { len := 2, cap := 2, data := [7, 8, 0] }) ∧
    WF { len := 2, cap := 5, data := [7, 8, 0, 9, 9, 9] } ∧
    WF { len := 3, cap := 3, data := [7, 8, 5, 0] } ∧
    WF { len := 1, cap := 2, data := [4, 0, 0] } ∧
    WF (gb_trim_string { len := 2, cap := 2, data := [7, 8, 0] } [7]) :=
  ⟨claim_C1_invariants.1 [7, 8] 2 (by decide)
      { len := 2, cap := 2, data := [7, 8, 0] } (by decide),
   claim_C1_invariants.2.1 1 { len := 1, cap := 1, data := [0, 0] } (by decide),
   claim_C1_invariants.2.2.1 { len := 2, cap := 2, data := [7, 8, 0] } (by decide),
   claim_C1_invariants.2.2.2.1 true (fun _ => 9)
      { len := 2, cap := 2, data := [7, 8, 0] } 3
      { len := 2, cap := 5, data := [7, 8, 0, 9, 9, 9] } (by decide) (by decide),
   claim_C1_invariants.2.2.2.2.1 true (fun _ => 9)
      { len := 2, cap := 2, data := [7, 8, 0] } [5] 1
      { len := 3, cap := 3, data := [7, 8, 5, 0] } (by decide) (by decide) (by decide),
   claim_C1_invariants.2.2.2.2.2.1 true (fun _ => 9)
      { len := 2, cap := 2, data := [7, 8, 0] } [4]
      { len := 1, cap := 2, data := [4, 0, 0] } (by decide) (by decide),
   claim_C1_invariants.2.2.2.2.2.2 { len := 2, cap := 2, data := [7, 8, 0] } [7]
      (by decide)⟩

/-- C2: reserve returns the buffer unchanged with no allocation when the
available space already covers the request (for every allocation oracle);
otherwise, on success, the new capacity is exactly length + additional (no
geometric over-allocation) and the length and first length payload bytes
are unchanged. -/
theorem claim_C2_reserve_exact (junk : Nat → Nat) (str : GbString) (add : Nat)
    (h : WF str) :
    (gb_string_available_space str ≥ add →
      ∀ alloc, gb_string_make_space_for alloc junk str add = some str) ∧
    (gb_string_available_space str < add →
      (gb_string_make_space_for true junk str add).isSome = true ∧
      ∀ alloc r, gb_string_make_space_for alloc junk str add = some r →
        r.cap = str.len + add ∧ r.len = str.len ∧
        r.data.take str.len = str.data.take str.len) := by
  constructor
  · intro hav alloc
    exact gb_string_make_space_for_of_avail alloc junk str add hav
  · intro hav
    constructor
    · rw [gb_string_make_space_for_grow junk str add (by omega)]
      rfl
    · intro alloc r hr
      obtain ⟨hsl, hsc, hsca, hsdl, hstk, hfit, hgrow⟩ :=
        gb_string_make_space_for_char alloc junk str r add h hr
      exact ⟨hgrow hav, hsl,
        gb_string_make_space_for_payload alloc junk str r add h hr⟩

/-- Witness for C2 at a buffer of length 1 and capacity 3 reserving 5 more
bytes. -/
theorem claim_C2_reserve_exact_witness :
    WF { len := 1, cap := 3, data := [5, 0, 9, 9] } ∧
    ((gb_string_available_space { len := 1, cap := 3, data := [5, 0, 9, 9] } ≥ 5 →
      ∀ alloc, gb_string_make_space_for alloc (fun _ => 7)
          { len := 1, cap := 3, data := [5, 0, 9, 9] } 5
        = some { len := 1, cap := 3, data := [5, 0, 9, 9] }) ∧
    (gb_string_available_space { len := 1, cap := 3, data := [5, 0, 9, 9] } < 5 →
      (gb_string_make_space_for true (fun _ => 7)
          { len := 1, cap := 3, data := [5, 0, 9, 9] } 5).isSome = true ∧
      ∀ alloc r, gb_string_make_space_for alloc (fun _ => 7)
          { len := 1, cap := 3, data := [5, 0, 9, 9] } 5 = some r →
        r.cap = ({ len := 1, cap := 3, data := [5, 0, 9, 9] } : GbString).len + 5 ∧
        r.len = ({ len := 1, cap := 3, data := [5, 0, 9, 9] } : GbString).len ∧
        r.data.take ({ len := 1, cap := 3, data := [5, 0, 9, 9] } : GbString).len
          = List.take ({ len := 1, cap := 3, data := [5, 0, 9, 9] } : GbString).len
              [5, 0, 9, 9])) :=
  ⟨by decide,
   claim_C2_reserve_exact (fun _ => 7) { len := 1, cap := 3, data := [5, 0, 9, 9] } 5
     (by decide)⟩

/-- C3: when the allocation inside reserve fails, reserve (and hence append
and assign, whose growth goes through it) returns none, and the caller's
block is never freed on that path (the model's frees flag stays false); the
input buffer itself is untouched, the embedding being functional. -/
theorem claim_C3_alloc_failure (junk : Nat → Nat) (str : GbString) (add : Nat)
    (h : WF str) (hneed : gb_string_available_space str < add) :
    gb_string_make_space_for false junk str add = none ∧
    gb_string_make_space_for_frees false str add = false ∧
    (∀ other : List Nat, gb_append_string_length false junk str other add = none) ∧
    (∀ cstr : List Nat, str.cap < cstr.length →
      gb_set_string false junk str cstr = none) :=
  ⟨gb_string_make_space_for_fail junk str add hneed,
   gb_string_make_space_for_frees_false str add,
   fun other => gb_append_string_length_fail junk str other add hneed,
   fun cstr hcl => gb_set_string_fail junk str cstr h hcl⟩

/-- Witness for C3 at a full buffer of capacity 1 asked for 2 more bytes. -/
theorem claim_C3_alloc_failure_witness :
    WF { len := 1, cap := 1, data := [5, 0] } ∧
    gb_string_available_space { len := 1, cap := 1, data := [5, 0] } < 2 ∧
    (gb_string_make_space_for false (fun _ => 7)
        { len := 1, cap := 1, data := [5, 0] } 2 = none ∧
      gb_string_make_space_for_frees false { len := 1, cap := 1, data := [5, 0] } 2
        = false ∧
      (∀ other : List Nat, gb_append_string_length false (fun _ => 7)
          { len := 1, cap := 1, data := [5, 0] } other 2 = none) ∧
      (∀ cstr : List Nat,
        ({ len := 1, cap := 1, data := [5, 0] } : GbString).cap < cstr.length →
        gb_set_string false (fun _ => 7)
          { len := 1, cap := 1, data := [5, 0] } cstr = none)) :=
  ⟨by decide, by decide,
   claim_C3_alloc_failure (fun _ => 7) { len := 1, cap := 1, data := [5, 0] } 2
     (by decide) (by decide)⟩

/-- C4: construction from a byte sequence b of length len yields, on
allocation success, a buffer with length = len, capacity = len (no slack),
payload b and terminator 0 at offset len; with a null source the payload
region is zero-filled instead. -/
theorem claim_C4_construction :
    (∀ b : List Nat,
      gb_make_string_length true (some b) b.length
        = some { len := b.length, cap := b.length, data := b ++ [0] }) ∧
    (∀ len : Nat,
      gb_make_string_length true none len
        = some { len := len, cap := len, data := List.replicate (len + 1) 0 }) := by
  constructor
  · intro b
    simp [gb_make_string_length, List.take_length]
  · intro len
    simp [gb_make_string_length]

/-- Counterexample for C5 as stated: on the well-formed buffer with payload
bytes [65, 0] and the empty cut set, the code trims the trailing 0 byte
(strchr matches the cut-set terminator), giving length 1, while the claimed
plain-membership algorithm keeps both bytes, giving [65, 0] of length 2. -/
theorem claim_C5_trim_counterexample :
    WF { len := 2, cap := 2, data := [65, 0, 0] } ∧
    (gb_trim_string { len := 2, cap := 2, data := [65, 0, 0] } []).len = 1 ∧
    gb_trim_spec { len := 2, cap := 2, data := [65, 0, 0] } [] = [65, 0] := by
  decide

/-- C5 (amended): trim removes exactly the maximal leading run and maximal
trailing run of bytes that are in cut_set or are the zero byte (strchr also
matches the cut_set terminator); the surviving bytes are moved to offset 0,
length becomes the span size, capacity is unchanged; in particular the
spec's example trims to Hello World of length 11. -/
theorem claim_C5_trim_corrected (str : GbString) (cut_set : List Nat)
    (h : WF str) :
    ((gb_trim_string str cut_set).len
        = (trimPayloadSpec (strchrB cut_set) (payload str)).length ∧
      payload (gb_trim_string str cut_set)
        = trimPayloadSpec (strchrB cut_set) (payload str) ∧
      (gb_trim_string str cut_set).cap = str.cap) ∧
    ((gb_trim_string trimExample trimExampleCut).len = 11 ∧
      payload (gb_trim_string trimExample trimExampleCut) = helloWorldBytes) := by
  obtain ⟨h1, h2, h3, _, _⟩ := gb_trim_string_char str cut_set h
  exact ⟨⟨h1, h2, h3⟩, by decide, by decide⟩

/-- Witness for C5 (amended) at the spec's own trim example. -/
theorem claim_C5_trim_corrected_witness :
    WF trimExample ∧
    (((gb_trim_string trimExample trimExampleCut).len
        = (trimPayloadSpec (strchrB trimExampleCut) (payload trimExample)).length ∧
      payload (gb_trim_string trimExample trimExampleCut)
        = trimPayloadSpec (strchrB trimExampleCut) (payload trimExample) ∧
      (gb_trim_string trimExample trimExampleCut).cap = trimExample.cap) ∧
    ((gb_trim_string trimExample trimExampleCut).len = 11 ∧
      payload (gb_trim_string trimExample trimExampleCut) = helloWorldBytes)) :=
  ⟨by decide, claim_C5_trim_corrected trimExample trimExampleCut (by decide)⟩

/-- C6: assign grows via reserve only when the current capacity is smaller
than the length of the new content (when it fits, the result is computed
with no allocation, for every allocation oracle, and capacity is
unchanged); on success the payload is the new bytes with terminator, the
length is the new length, and capacity never shrinks (it becomes exactly
the new length when growth was needed). -/
theorem claim_C6_assign (junk : Nat → Nat) (str : GbString) (cstr : List Nat)
    (h : WF str) :
    (cstr.length ≤ str.cap →
      ∀ alloc, gb_set_string alloc junk str cstr
        = some { len := cstr.length, cap := str.cap,
                 data := (memcpyAt str.data 0 cstr).set cstr.length 0 }) ∧
    (∀ alloc r, gb_set_string alloc junk str cstr = some r →
      r.len = cstr.length ∧
      r.data.take (cstr.length + 1) = cstr ++ [0] ∧
      str.cap ≤ r.cap ∧
      (cstr.length ≤ str.cap → r.cap = str.cap) ∧
      (str.cap < cstr.length → r.cap = cstr.length)) := by
  constructor
  · intro hfit alloc
    exact gb_set_string_of_fits alloc junk str cstr (by
      unfold gb_string_capacity
      omega)
  · intro alloc r hr
    obtain ⟨hl, hc, hca, hdl, htk, ht, hf, hg⟩ :=
      gb_set_string_char alloc junk str cstr r h hr
    exact ⟨hl, htk, hc, hf, hg⟩

/-- Witness for C6 assigning a longer string to a buffer of capacity 2. -/
theorem claim_C6_assign_witness :
    WF { len := 2, cap := 2, data := [1, 2, 0] } ∧
    ((3 ≤ ({ len := 2, cap := 2, data := [1, 2, 0] } : GbString).cap →
      ∀ alloc, gb_set_string alloc (fun _ => 7)
          { len := 2, cap := 2, data := [1, 2, 0] } [9, 9, 9]
        = some { len := 3, cap := 2,
                 data := (memcpyAt [1, 2, 0] 0 [9, 9, 9]).set 3 0 }) ∧
    (∀ alloc r, gb_set_string alloc (fun _ => 7)
        { len := 2, cap := 2, data := [1, 2, 0] } [9, 9, 9] = some r →
      r.len = 3 ∧
      r.data.take 4 = [9, 9, 9] ++ [0] ∧
      ({ len := 2, cap := 2, data := [1, 2, 0] } : GbString).cap ≤ r.cap ∧
      (3 ≤ ({ len := 2, cap := 2, data := [1, 2, 0] } : GbString).cap →
        r.cap = ({ len := 2, cap := 2, data := [1, 2, 0] } : GbString).cap) ∧
      (({ len := 2, cap := 2, data := [1, 2, 0] } : GbString).cap < 3 →
        r.cap = 3))) :=
  ⟨by decide,
   claim_C6_assign (fun _ => 7) { len := 2, cap := 2, data := [1, 2, 0] } [9, 9, 9]
     (by decide)⟩

/-- C7: trimming twice with the same cut set gives the same payload and
length as trimming once. -/
theorem claim_C7_trim_idempotent (str : GbString) (cut_set : List Nat)
    (h : WF str) :
    (gb_trim_string (gb_trim_string str cut_set) cut_set).len
      = (gb_trim_string str cut_set).len ∧
    payload (gb_trim_string (gb_trim_string str cut_set) cut_set)
      = payload (gb_trim_string str cut_set) := by
  have hwf1 := gb_trim_string_wf str cut_set h
  obtain ⟨l1, p1, c1, d1, t1⟩ := gb_trim_string_char str cut_set h
  obtain ⟨l2, p2, c2, d2, t2⟩ :=
    gb_trim_string_char (gb_trim_string str cut_set) cut_set hwf1
  constructor
  · rw [l2, p1, l1, trimPayloadSpec_idem]
  · rw [p2, p1, trimPayloadSpec_idem]

/-- Witness for C7 on a buffer whose payload starts and ends with a cut
byte. -/
theorem claim_C7_trim_idempotent_witness :
    WF { len := 3, cap := 3, data := [7, 5, 7, 0] } ∧
    ((gb_trim_string (gb_trim_string { len := 3, cap := 3, data := [7, 5, 7, 0] } [7]) [7]).len
      = (gb_trim_string { len := 3, cap := 3, data := [7, 5, 7, 0] } [7]).len ∧
    payload (gb_trim_string (gb_trim_string { len := 3, cap := 3, data := [7, 5, 7, 0] } [7]) [7])
      = payload (gb_trim_string { len := 3, cap := 3, data := [7, 5, 7, 0] } [7])) :=
  ⟨by decide,
   claim_C7_trim_idempotent { len := 3, cap := 3, data := [7, 5, 7, 0] } [7]
     (by decide)⟩

/-- C8: trim's membership test (strchr) also matches the cut_set string's
terminator, so the zero byte is always treated as a cut-set member, and a
nonempty payload whose first or last byte is 0 is always strictly shortened
by trim, whatever the cut set. -/
theorem claim_C8_zero_byte (cut_set : List Nat) :
    strchrB cut_set 0 = true ∧
    (∀ str : GbString, WF str → 0 < str.len →
      ((payload str).headD 0 = 0 ∨ (payload str).getLastD 0 = 0) →
      (gb_trim_string str cut_set).len < str.len) := by
  refine ⟨strchrB_zero cut_set, ?_⟩
  intro str hwf hpos hz
  obtain ⟨hlen, _, _, _, _⟩ := gb_trim_string_char str cut_set hwf
  obtain ⟨h1, h2, h3⟩ := hwf
  have hplen : (payload str).length = str.len := by
    unfold payload
    rw [List.length_take]
    omega
  rw [hlen, ← hplen]
  rcases hz with hz | hz
  · cases hp : payload str with
    | nil =>
      rw [hp] at hplen
      simp at hplen
      omega
    | cons a t =>
      rw [hp] at hz
      simp only [List.headD_cons] at hz
      subst hz
      exact trimPayloadSpec_length_lt_of_head _ _ _ (strchrB_zero cut_set)
  · have hne : payload str ≠ [] := by
      intro hnil
      rw [hnil] at hplen
      simp at hplen
      omega
    apply trimPayloadSpec_length_lt_of_last _ _ hne
    rw [hz]
    exact strchrB_zero cut_set

/-- Witness for C8 with the empty cut set on payload [65, 0]. -/
theorem claim_C8_zero_byte_witness :
    strchrB [] 0 = true ∧
    (WF { len := 2, cap := 2, data := [65, 0, 0] } ∧
      0 < (2 : Nat) ∧
      (payload { len := 2, cap := 2, data := [65, 0, 0] }).getLastD 0 = 0 ∧
      (gb_trim_string { len := 2, cap := 2, data := [65, 0, 0] } []).len < 2) :=
  ⟨(claim_C8_zero_byte []).1,
   by decide, by decide, by decide,
   (claim_C8_zero_byte []).2 { len := 2, cap := 2, data := [65, 0, 0] }
     (by decide) (by decide) (Or.inr (by decide))⟩

/-- C9: capacity is non-decreasing across every successful operation that
returns a live buffer, and reserve makes it strictly larger exactly when it
reallocates (i.e. when the available space did not cover the request). -/
theorem claim_C9_capacity_monotone :
    (∀ (a : Bool) (j : Nat → Nat) (s : GbString) (add : Nat) (r : GbString),
      WF s → gb_string_make_space_for a j s add = some r →
        s.cap ≤ r.cap ∧
        (gb_string_available_space s ≥ add → r.cap = s.cap) ∧
        (gb_string_available_space s < add → s.cap < r.cap)) ∧
    (∀ (a : Bool) (j : Nat → Nat) (s : GbString) (other : List Nat)
        (olen : Nat) (r : GbString),
      WF s → olen ≤ other.length →
      gb_append_string_length a j s other olen = some r → s.cap ≤ r.cap) ∧
    (∀ (a : Bool) (j : Nat → Nat) (s : GbString) (cstr : List Nat) (r : GbString),
      WF s → gb_set_string a j s cstr = some r → s.cap ≤ r.cap) ∧
    (∀ (s : GbString) (cs : List Nat), (gb_trim_string s cs).cap = s.cap) ∧
    (∀ s : GbString, (gb_clear_string s).cap = s.cap) := by
  refine ⟨?_, ?_, ?_, fun s cs => rfl, fun s => rfl⟩
  · intro a j s add r hwf hr
    obtain ⟨hsl, hsc, hsca, _, _, hfit, hgrow⟩ :=
      gb_string_make_space_for_char a j s r add hwf hr
    refine ⟨hsc, ?_, ?_⟩
    · intro hav
      rw [hfit hav]
    · intro hav
      obtain ⟨h1, _, _⟩ := hwf
      rw [hgrow hav]
      unfold gb_string_available_space at hav
      split at hav <;> omega
  · intro a j s o olen r hwf ho hr
    exact (gb_append_string_length_char a j s o olen r hwf ho hr).2.1
  · intro a j s c r hwf hr
    exact (gb_set_string_char a j s c r hwf hr).2.1

/-- Witness for C9: a growing reserve call strictly increases capacity;
append, assign, trim and clear never decrease it. -/
theorem claim_C9_capacity_monotone_witness :
    (WF { len := 1, cap := 1, data := [5, 0] } ∧
      ({ len := 1, cap := 1, data := [5, 0] } : GbString).cap
          ≤ ({ len := 1, cap := 3, data := [5, 0, 7, 7] } : GbString).cap ∧
      (gb_string_available_space { len := 1, cap := 1, data := [5, 0] } < 2 →
        ({ len := 1, cap := 1, data := [5, 0] } : GbString).cap
          < ({ len := 1, cap := 3, data := [5, 0, 7, 7] } : GbString).cap)) ∧
    (gb_trim_string { len := 1, cap := 1, data := [5, 0] } []).cap
      = ({ len := 1, cap := 1, data := [5, 0] } : GbString).cap ∧
    (gb_clear_string { len := 1, cap := 1, data := [5, 0] }).cap
      = ({ len := 1, cap := 1, data := [5, 0] } : GbString).cap :=
  ⟨⟨by decide,
    (claim_C9_capacity_monotone.1 true (fun _ => 7)
      { len := 1, cap := 1, data := [5, 0] } 2
      { len := 1, cap := 3, data := [5, 0, 7, 7] } (by decide) (by decide)).1,
    (claim_C9_capacity_monotone.1 true (fun _ => 7)
      { len := 1, cap := 1, data := [5, 0] } 2
      { len := 1, cap := 3, data := [5, 0, 7, 7] } (by decide) (by decide)).2.2⟩,
   claim_C9_capacity_monotone.2.2.2.1 { len := 1, cap := 1, data := [5, 0] } [],
   claim_C9_capacity_monotone.2.2.2.2 { len := 1, cap := 1, data := [5, 0] }⟩

/-- C10: appending zero bytes always succeeds (for every allocation oracle,
so no allocation is needed), only rewrites the terminator slot, and leaves
payload bytes, length and capacity unchanged. -/
theorem claim_C10_append_nothing (alloc : Bool) (junk : Nat → Nat)
    (str : GbString) (other : List Nat) :
    gb_append_string_length alloc junk str other 0
      = some { len := str.len, cap := str.cap, data := str.data.set str.len 0 } ∧
    (str.data.set str.len 0).take str.len = str.data.take str.len := by
  constructor
  · simp only [gb_append_string_length, gb_string_length]
    rw [gb_string_make_space_for_of_avail alloc junk str 0 (Nat.zero_le _)]
    simp [memcpyAt, List.take_append_drop]
  · exact take_set_of_le (le_refl _)

end GbSpec
